import Mathlib

/-!
Shallow embedding of the cross-source consensus reconciliation engine of
pySecMaster (`cross_validator.py`, class `CrossValidate`), together with
theorems settling the specification claims about it.

Modelling conventions:
* prices and consensus weights are rationals (`ℚ`); a missing (NULL / None)
  price cell is `Option.none`;
* dates and timestamps are integers (days); vendor ids are integers;
* the per-instrument price table (`tsid_prices_df`) is a list of rows, each
  row holding a date, a data-vendor id and the list of price-field cells in
  column order;
* the backing store for one instrument is the same list-of-rows type;
  `DELETE` is `List.filter`, `df_to_sql(..., exists='append')` is
  `List.append`;
* the outcome of each `delete_sql_table_rows` call is an oracle
  `Nat → Bool` giving the success of the i-th attempt.
-/

set_option autoImplicit false

namespace PySecMaster

/-- One stored price row: a date, the reporting data-vendor id, the price
field cells in column order (none = NULL), and the updated-date stamp. -/
structure PriceRow where
  date : Int
  vendor : Int
  fields : List (Option ℚ)
  updated : Int
  deriving DecidableEq, Repr

/-- Weight lookup mirroring
`source_weights_df.loc[source_weights_df['data_vendor_id'] == vid, 'consensus_weight'].iloc[0]`:
the first row whose vendor id matches; `none` models the `IndexError` path
(no weight row for this vendor). -/
def lookupWeight : List (Int × ℚ) → Int → Option ℚ
  | [], _ => none
  | p :: ps, vid => if p.1 = vid then some p.2 else lookupWeight ps vid

/-- One tally update, mirroring the dict mutation
`field_consensus[value] += weight` / `field_consensus[value] = weight`:
if the value already keys a bucket, add the weight to that bucket,
otherwise append a fresh bucket (Python dicts preserve insertion order). -/
def tallyInsert (tally : List (ℚ × ℚ)) (v w : ℚ) : List (ℚ × ℚ) :=
  if v ∈ tally.map Prod.fst then
    tally.map (fun p => if p.1 = v then (p.1, p.2 + w) else p)
  else
    tally ++ [(v, w)]

/-- Processing of one `(data_vendor_id, value)` pair of the field series:
skip excluded vendors, skip `None` values, skip vendors with no weight row
(the `IndexError` → `pass` branch), otherwise update the tally. -/
def voteStep (excl : List Int) (weights : List (Int × ℚ))
    (tally : List (ℚ × ℚ)) (o : Int × Option ℚ) : List (ℚ × ℚ) :=
  if o.1 ∈ excl then tally
  else
    match o.2 with
    | none => tally
    | some v =>
      match lookupWeight weights o.1 with
      | none => tally
      | some w => tallyInsert tally v w

/-- The `field_consensus` dict built by the inner `for source_data in
field_data.iteritems()` loop, as an insertion-ordered association list. -/
def tallyField (excl : List Int) (weights : List (Int × ℚ))
    (obs : List (Int × Option ℚ)) : List (ℚ × ℚ) :=
  obs.foldl (voteStep excl weights) []

/-- Python `max(items, key=itemgetter(1))`: left fold keeping the current
best and replacing it only on a strictly greater key, so the first of
several maxima wins; `none` models the `ValueError` on an empty dict. -/
def pyMax (l : List (ℚ × ℚ)) : Option (ℚ × ℚ) :=
  match l with
  | [] => none
  | x :: xs => some (xs.foldl (fun best p => if best.2 < p.2 then p else best) x)

/-- The consensus value for one date and one price field:
the key of the maximal-weight bucket, or `-1` when the tally is empty
(the `except ValueError: consensus_value = -1` branch). -/
def fieldConsensus (excl : List Int) (weights : List (Int × ℚ))
    (obs : List (Int × Option ℚ)) : ℚ :=
  match pyMax (tallyField excl weights obs) with
  | some p => p.1
  | none => -1

/-- The weight one observation contributes to the bucket of value `v`. -/
def obsWeight (excl : List Int) (weights : List (Int × ℚ))
    (o : Int × Option ℚ) (v : ℚ) : ℚ :=
  if o.1 ∈ excl then 0
  else
    match o.2 with
    | none => 0
    | some u =>
      if u = v then
        match lookupWeight weights o.1 with
        | none => 0
        | some w => w
      else 0

/-- Total weight accumulated on value `v` by a list of observations. -/
def accumWeight (excl : List Int) (weights : List (Int × ℚ))
    (obs : List (Int × Option ℚ)) (v : ℚ) : ℚ :=
  (obs.map (fun o => obsWeight excl weights o v)).sum

/-- Bucket lookup in a tally (weight of value `v`, `0` if absent). -/
def tallyLookup : List (ℚ × ℚ) → ℚ → ℚ
  | [], _ => 0
  | p :: ps, v => if p.1 = v then p.2 else tallyLookup ps v

/-- Rows of the price table carrying a given date
(`tsid_prices_df.xs(date, level='date')`), in stored order. -/
def rowsForDate (rows : List PriceRow) (d : Int) : List PriceRow :=
  rows.filter (fun r => decide (r.date = d))

/-- The observation series for field column `i` after transposing the
period frame: one `(data_vendor_id, value)` pair per row of the date. -/
def fieldObs (dayRows : List PriceRow) (i : Nat) : List (Int × Option ℚ) :=
  dayRows.map (fun r => (r.vendor, r.fields.getD i none))

/-- The consensus record body for one date: the consensus value of every
field column, in column order. -/
def consensusForDate (excl : List Int) (weights : List (Int × ℚ))
    (rows : List PriceRow) (nfields : Nat) (d : Int) : List ℚ :=
  (List.range nfields).map
    (fun i => fieldConsensus excl weights (fieldObs (rowsForDate rows d) i))

/-- First-occurrence deduplication, as pandas `Index.unique` does. -/
def uniqueKeep (l : List Int) : List Int :=
  l.foldl (fun acc d => if d ∈ acc then acc else acc ++ [d]) []

/-- `tsid_prices_df.index.get_level_values('date').unique()`. -/
def uniqueDates (rows : List PriceRow) : List Int :=
  uniqueKeep (rows.map (fun r => r.date))

/-- `tsid_prices_df.index.get_level_values('data_vendor_id').unique()`. -/
def uniqueSources (rows : List PriceRow) : List Int :=
  uniqueKeep (rows.map (fun r => r.vendor))

/-- The period window filter: with a period `n`, keep only dates strictly
after `beg_date = now - n`; with no period, keep every date. -/
def windowDates (period : Option Int) (now : Int) (dates : List Int) : List Int :=
  match period with
  | none => dates
  | some n => dates.filter (fun d => decide (now - n < d))

/-- The `consensus_price_df` assembled by the date loop: one row per
surviving unique date, tagged with the reserved consensus vendor id and
stamped with the run's wall-clock time. -/
def consensusRows (excl : List Int) (weights : List (Int × ℚ))
    (rows : List PriceRow) (nfields : Nat) (period : Option Int)
    (now vid : Int) : List PriceRow :=
  (windowDates period now (uniqueDates rows)).map
    (fun d =>
      { date := d, vendor := vid,
        fields := (consensusForDate excl weights rows nfields d).map some,
        updated := now })

/-- The `DELETE` statement: drop prior consensus rows of this instrument,
restricted to dates strictly after `now - n` when a period is set. -/
def deleteRows (period : Option Int) (now vid : Int)
    (storage : List PriceRow) : List PriceRow :=
  match period with
  | none => storage.filter (fun r => !decide (r.vendor = vid))
  | some n => storage.filter (fun r => !(decide (r.vendor = vid) && decide (now - n < r.date)))

/-- The `while retry_count > 0` delete/insert loop: each iteration runs one
delete attempt; on `'success'` it appends the new rows to the deleted
storage and stops, else it retries until the fuel is spent. Returns the
final storage, the number of delete attempts made, and whether the insert
ran. -/
def writeLoop (outcomes : Nat → Bool) (delStorage newRows storage : List PriceRow) :
    Nat → Nat → List PriceRow × Nat × Bool
  | k, 0 => (storage, k, false)
  | k, fuel + 1 =>
    if outcomes k then (delStorage ++ newRows, k + 1, true)
    else writeLoop outcomes delStorage newRows storage (k + 1) fuel

/-- One `CrossValidate.validator` run for a single instrument: compute the
consensus rows, then either delete-with-retry and append (when the
reserved consensus vendor already appears among the instrument's stored
sources) or append directly. Returns the final storage, the number of
delete attempts, and whether the append ran. -/
def runValidator (excl : List Int) (weights : List (Int × ℚ)) (nfields : Nat)
    (period : Option Int) (vid now : Int) (outcomes : Nat → Bool)
    (storage : List PriceRow) : List PriceRow × Nat × Bool :=
  if vid ∈ uniqueSources storage then
    writeLoop outcomes (deleteRows period now vid storage)
      (consensusRows excl weights storage nfields period now vid) storage 0 5
  else
    (storage ++ consensusRows excl weights storage nfields period now vid, 0, true)

/-! ### Helper lemmas about the tally -/

theorem tallyLookup_append_not_mem (t : List (ℚ × ℚ)) (u : ℚ) (w v : ℚ)
    (hu : u ∉ t.map Prod.fst) :
    tallyLookup (t ++ [(u, w)]) v = tallyLookup t v + if v = u then w else 0 := by
  induction t with
  | nil =>
    simp only [List.nil_append, tallyLookup]
    by_cases h : v = u
    · subst h; simp
    · have h' : u ≠ v := fun hh => h hh.symm
      simp [h, h']
  | cons p t ih =>
    simp only [List.map_cons, List.mem_cons, not_or] at hu
    simp only [List.cons_append, tallyLookup]
    by_cases hp : p.1 = v
    · have hv : v ≠ u := fun hvu => hu.1 ((hp.trans hvu).symm)
      simp [hp, hv]
    · simp only [hp, if_false]
      exact ih hu.2

theorem tallyLookup_map_ne (t : List (ℚ × ℚ)) (u w v : ℚ) (hv : v ≠ u) :
    tallyLookup (t.map (fun p => if p.1 = u then (p.1, p.2 + w) else p)) v
      = tallyLookup t v := by
  induction t with
  | nil => rfl
  | cons p t ih =>
    simp only [List.map_cons, tallyLookup]
    by_cases hp : p.1 = u
    · have huv : u ≠ v := fun h => hv h.symm
      have hp1 : p.1 ≠ v := by rw [hp]; exact huv
      simp [hp, hp1, huv, ih]
    · simp only [hp, if_false]
      by_cases hp2 : p.1 = v
      · simp [hp2]
      · simp [hp2, ih]

theorem tallyLookup_map_mem (t : List (ℚ × ℚ)) (u w : ℚ)
    (hu : u ∈ t.map Prod.fst) :
    tallyLookup (t.map (fun p => if p.1 = u then (p.1, p.2 + w) else p)) u
      = tallyLookup t u + w := by
  induction t with
  | nil => simp at hu
  | cons p t ih =>
    simp only [List.map_cons, List.mem_cons] at hu
    simp only [List.map_cons, tallyLookup]
    by_cases hp : p.1 = u
    · simp [hp]
    · have hu' : u ∈ t.map Prod.fst := hu.resolve_left (fun h => hp h.symm)
      simp [hp, ih hu']

theorem tallyLookup_tallyInsert (t : List (ℚ × ℚ)) (u w v : ℚ) :
    tallyLookup (tallyInsert t u w) v
      = tallyLookup t v + if v = u then w else 0 := by
  unfold tallyInsert
  by_cases hu : u ∈ t.map Prod.fst
  · simp only [hu, if_true]
    by_cases hv : v = u
    · subst hv; simp [tallyLookup_map_mem t v w hu]
    · simp [hv, tallyLookup_map_ne t u w v hv]
  · simp only [hu, if_false]
    exact tallyLookup_append_not_mem t u w v hu

theorem tallyLookup_voteStep (excl : List Int) (weights : List (Int × ℚ))
    (t : List (ℚ × ℚ)) (o : Int × Option ℚ) (v : ℚ) :
    tallyLookup (voteStep excl weights t o) v
      = tallyLookup t v + obsWeight excl weights o v := by
  unfold voteStep obsWeight
  by_cases he : o.1 ∈ excl
  · simp [he]
  · simp only [he, if_false]
    match ho : o.2 with
    | none => simp
    | some u =>
      match hw : lookupWeight weights o.1 with
      | none =>
        by_cases huv : u = v <;> simp [huv]
      | some w =>
        rw [tallyLookup_tallyInsert]
        by_cases huv : u = v
        · simp [huv]
        · have hvu : v ≠ u := fun h => huv h.symm
          simp [huv, hvu]

theorem tallyLookup_foldl (excl : List Int) (weights : List (Int × ℚ))
    (obs : List (Int × Option ℚ)) (t : List (ℚ × ℚ)) (v : ℚ) :
    tallyLookup (obs.foldl (voteStep excl weights) t) v
      = tallyLookup t v + accumWeight excl weights obs v := by
  induction obs generalizing t with
  | nil => simp [accumWeight]
  | cons o obs ih =>
    simp only [List.foldl_cons]
    rw [ih, tallyLookup_voteStep]
    simp [accumWeight, add_assoc]

theorem tallyLookup_tallyField (excl : List Int) (weights : List (Int × ℚ))
    (obs : List (Int × Option ℚ)) (v : ℚ) :
    tallyLookup (tallyField excl weights obs) v = accumWeight excl weights obs v := by
  unfold tallyField
  rw [tallyLookup_foldl]
  simp [tallyLookup]

theorem tallyInsert_keys_nodup (t : List (ℚ × ℚ)) (u w : ℚ)
    (h : (t.map Prod.fst).Nodup) :
    ((tallyInsert t u w).map Prod.fst).Nodup := by
  unfold tallyInsert
  by_cases hu : u ∈ t.map Prod.fst
  · simp only [hu, if_true]
    have : (t.map (fun p => if p.1 = u then (p.1, p.2 + w) else p)).map Prod.fst
        = t.map Prod.fst := by
      rw [List.map_map]
      apply List.map_congr_left
      intro p _
      by_cases hp : p.1 = u <;> simp [hp]
    rw [this]; exact h
  · simp only [hu, if_false, List.map_append, List.map_cons, List.map_nil]
    rw [List.nodup_append]
    refine ⟨h, List.nodup_singleton u, ?_⟩
    intro a ha hb
    simp only [List.mem_singleton] at hb
    exact hu (hb ▸ ha)

theorem voteStep_keys_nodup (excl : List Int) (weights : List (Int × ℚ))
    (t : List (ℚ × ℚ)) (o : Int × Option ℚ) (h : (t.map Prod.fst).Nodup) :
    ((voteStep excl weights t o).map Prod.fst).Nodup := by
  unfold voteStep
  by_cases he : o.1 ∈ excl
  · simpa [he] using h
  · simp only [he, if_false]
    match o.2 with
    | none => exact h
    | some v =>
      match lookupWeight weights o.1 with
      | none => exact h
      | some w => exact tallyInsert_keys_nodup t v w h

theorem tallyField_keys_nodup (excl : List Int) (weights : List (Int × ℚ))
    (obs : List (Int × Option ℚ)) :
    ((tallyField excl weights obs).map Prod.fst).Nodup := by
  unfold tallyField
  have main : ∀ (l : List (Int × Option ℚ)) (t : List (ℚ × ℚ)),
      (t.map Prod.fst).Nodup →
      ((l.foldl (voteStep excl weights) t).map Prod.fst).Nodup := by
    intro l
    induction l with
    | nil => intro t ht; simpa using ht
    | cons o l ih =>
      intro t ht
      simp only [List.foldl_cons]
      exact ih _ (voteStep_keys_nodup excl weights t o ht)
  exact main obs [] (by simp)

theorem tallyLookup_of_mem (t : List (ℚ × ℚ)) (p : ℚ × ℚ)
    (hn : (t.map Prod.fst).Nodup) (hp : p ∈ t) :
    tallyLookup t p.1 = p.2 := by
  induction t with
  | nil => simp at hp
  | cons q t ih =>
    simp only [List.map_cons, List.nodup_cons] at hn
    rcases List.mem_cons.mp hp with h | h
    · subst h; simp [tallyLookup]
    · have hq : q.1 ≠ p.1 := by
        intro hqp
        exact hn.1 (hqp ▸ List.mem_map_of_mem Prod.fst h)
      simp only [tallyLookup, hq, if_false]
      exact ih hn.2 h

/-! ### Helper lemmas about the Python `max` fold -/

theorem pyFold_spec (xs : List (ℚ × ℚ)) (b : ℚ × ℚ) :
    (xs.foldl (fun best p => if best.2 < p.2 then p else best) b = b ∨
      xs.foldl (fun best p => if best.2 < p.2 then p else best) b ∈ xs) ∧
    b.2 ≤ (xs.foldl (fun best p => if best.2 < p.2 then p else best) b).2 ∧
    ∀ p ∈ xs, p.2 ≤ (xs.foldl (fun best p => if best.2 < p.2 then p else best) b).2 := by
  induction xs generalizing b with
  | nil => simp
  | cons q xs ih =>
    simp only [List.foldl_cons]
    by_cases hq : b.2 < q.2
    · simp only [hq, if_true]
      obtain ⟨hmem, hle, hall⟩ := ih q
      refine ⟨?_, ?_, ?_⟩
      · rcases hmem with h | h
        · exact Or.inr (by rw [h]; exact List.mem_cons_self q xs)
        · exact Or.inr (List.mem_cons_of_mem q h)
      · exact le_of_lt (lt_of_lt_of_le hq hle)
      · intro p hp
        rcases List.mem_cons.mp hp with h | h
        · exact h ▸ hle
        · exact hall p h
    · simp only [hq, if_false]
      obtain ⟨hmem, hle, hall⟩ := ih b
      refine ⟨?_, hle, ?_⟩
      · rcases hmem with h | h
        · exact Or.inl h
        · exact Or.inr (List.mem_cons_of_mem q h)
      · intro p hp
        rcases List.mem_cons.mp hp with h | h
        · exact h ▸ le_trans (le_of_not_lt hq) hle
        · exact hall p h

theorem pyMax_mem_and_max (t : List (ℚ × ℚ)) (m : ℚ × ℚ) (h : pyMax t = some m) :
    m ∈ t ∧ ∀ p ∈ t, p.2 ≤ m.2 := by
  match t with
  | [] => simp [pyMax] at h
  | x :: xs =>
    simp only [pyMax, Option.some_inj] at h
    obtain ⟨hmem, hle, hall⟩ := pyFold_spec xs x
    rw [h] at hmem hle hall
    constructor
    · rcases hmem with h1 | h1
      · rw [h1]; exact List.mem_cons_self x xs
      · exact List.mem_cons_of_mem x h1
    · intro p hp
      rcases List.mem_cons.mp hp with h1 | h1
      · rw [h1]; exact hle
      · exact hall p h1

theorem pyFold_first (xs : List (ℚ × ℚ)) (b : ℚ × ℚ) :
    xs.foldl (fun best p => if best.2 < p.2 then p else best) b = b ∨
    ∃ l1 l2, xs = l1 ++ (xs.foldl (fun best p => if best.2 < p.2 then p else best) b) :: l2 ∧
      b.2 < (xs.foldl (fun best p => if best.2 < p.2 then p else best) b).2 ∧
      ∀ p ∈ l1, p.2 < (xs.foldl (fun best p => if best.2 < p.2 then p else best) b).2 := by
  induction xs generalizing b with
  | nil => simp
  | cons q xs ih =>
    simp only [List.foldl_cons]
    by_cases hq : b.2 < q.2
    · simp only [hq, if_true]
      rcases ih q with h | ⟨l1, l2, hsplit, hlt, hall⟩
      · refine Or.inr ⟨[], xs, ?_, ?_, ?_⟩
        · simp [h]
        · rw [h]; exact hq
        · simp
      · refine Or.inr ⟨q :: l1, l2, ?_, lt_trans hq hlt, ?_⟩
        · rw [List.cons_append, ← hsplit]
        · intro p hp
          rcases List.mem_cons.mp hp with h | h
          · exact h ▸ hlt
          · exact hall p h
    · simp only [hq, if_false]
      rcases ih b with h | ⟨l1, l2, hsplit, hlt, hall⟩
      · exact Or.inl h
      · refine Or.inr ⟨q :: l1, l2, ?_, hlt, ?_⟩
        · rw [List.cons_append, ← hsplit]
        · intro p hp
          rcases List.mem_cons.mp hp with h | h
          · exact h ▸ lt_of_le_of_lt (le_of_not_lt hq) hlt
          · exact hall p h

theorem pyMax_first (t : List (ℚ × ℚ)) (m : ℚ × ℚ) (h : pyMax t = some m) :
    ∃ l1 l2, t = l1 ++ m :: l2 ∧ ∀ p ∈ l1, p.2 < m.2 := by
  match t with
  | [] => simp [pyMax] at h
  | x :: xs =>
    simp only [pyMax, Option.some_inj] at h
    rcases pyFold_first xs x with hx | ⟨l1, l2, hsplit, hlt, hall⟩
    · refine ⟨[], xs, ?_, by simp⟩
      rw [List.nil_append, ← h, hx]
    · refine ⟨x :: l1, l2, ?_, ?_⟩
      · rw [List.cons_append, ← h, ← hsplit]
      · intro p hp
        rcases List.mem_cons.mp hp with hh | hh
        · exact hh ▸ (h ▸ hlt)
        · exact h ▸ hall p hh

/-! ### Skip and filter lemmas for the voting loop -/

theorem voteStep_skip (excl : List Int) (weights : List (Int × ℚ))
    (t : List (ℚ × ℚ)) (o : Int × Option ℚ)
    (h : o.1 ∈ excl ∨ o.2 = none ∨ lookupWeight weights o.1 = none) :
    voteStep excl weights t o = t := by
  unfold voteStep
  by_cases he : o.1 ∈ excl
  · simp [he]
  · simp only [he, if_false]
    rcases h with h | h | h
    · exact absurd h he
    · simp [h]
    · match ho : o.2 with
      | none => rfl
      | some v => rw [h]

theorem tallyField_skip_middle (excl : List Int) (weights : List (Int × ℚ))
    (pre post : List (Int × Option ℚ)) (o : Int × Option ℚ)
    (h : o.1 ∈ excl ∨ o.2 = none ∨ lookupWeight weights o.1 = none) :
    tallyField excl weights (pre ++ o :: post) = tallyField excl weights (pre ++ post) := by
  unfold tallyField
  rw [List.foldl_append, List.foldl_append, List.foldl_cons,
    voteStep_skip excl weights _ o h]

theorem fieldConsensus_skip_middle (excl : List Int) (weights : List (Int × ℚ))
    (pre post : List (Int × Option ℚ)) (o : Int × Option ℚ)
    (h : o.1 ∈ excl ∨ o.2 = none ∨ lookupWeight weights o.1 = none) :
    fieldConsensus excl weights (pre ++ o :: post)
      = fieldConsensus excl weights (pre ++ post) := by
  unfold fieldConsensus
  rw [tallyField_skip_middle excl weights pre post o h]

theorem tallyField_filter_excl (excl : List Int) (weights : List (Int × ℚ))
    (obs : List (Int × Option ℚ)) :
    tallyField excl weights obs
      = tallyField excl weights (obs.filter (fun o => !decide (o.1 ∈ excl))) := by
  unfold tallyField
  have main : ∀ (l : List (Int × Option ℚ)) (t : List (ℚ × ℚ)),
      l.foldl (voteStep excl weights) t
        = (l.filter (fun o => !decide (o.1 ∈ excl))).foldl (voteStep excl weights) t := by
    intro l
    induction l with
    | nil => intro t; rfl
    | cons o l ih =>
      intro t
      by_cases he : o.1 ∈ excl
      · rw [List.foldl_cons, voteStep_skip excl weights t o (Or.inl he)]
        simp [List.filter_cons, he, ih]
      · simp [List.filter_cons, he, ih]
  exact main obs []

theorem fieldConsensus_filter_excl (excl : List Int) (weights : List (Int × ℚ))
    (obs1 obs2 : List (Int × Option ℚ))
    (h : obs1.filter (fun o => !decide (o.1 ∈ excl))
        = obs2.filter (fun o => !decide (o.1 ∈ excl))) :
    fieldConsensus excl weights obs1 = fieldConsensus excl weights obs2 := by
  unfold fieldConsensus
  rw [tallyField_filter_excl excl weights obs1, h, ← tallyField_filter_excl]

/-! ### Helper lemmas about first-occurrence deduplication -/

theorem mem_uniqueKeep_foldl (l : List Int) (acc : List Int) (a : Int) :
    a ∈ l.foldl (fun acc d => if d ∈ acc then acc else acc ++ [d]) acc ↔
      a ∈ acc ∨ a ∈ l := by
  induction l generalizing acc with
  | nil => simp
  | cons d l ih =>
    simp only [List.foldl_cons]
    by_cases hd : d ∈ acc
    · rw [if_pos hd, ih]
      constructor
      · rintro (h | h)
        · exact Or.inl h
        · exact Or.inr (List.mem_cons_of_mem d h)
      · rintro (h | h)
        · exact Or.inl h
        · rcases List.mem_cons.mp h with h | h
          · exact Or.inl (h ▸ hd)
          · exact Or.inr h
    · rw [if_neg hd, ih]
      simp only [List.mem_append, List.mem_singleton, List.mem_cons]
      tauto

theorem mem_uniqueKeep (l : List Int) (a : Int) : a ∈ uniqueKeep l ↔ a ∈ l := by
  unfold uniqueKeep
  rw [mem_uniqueKeep_foldl]
  simp

theorem uniqueKeep_foldl_absorb (l2 : List Int) (acc : List Int)
    (h : ∀ a ∈ l2, a ∈ acc) :
    l2.foldl (fun acc d => if d ∈ acc then acc else acc ++ [d]) acc = acc := by
  induction l2 with
  | nil => rfl
  | cons d l ih =>
    simp only [List.foldl_cons, if_pos (h d (List.mem_cons_self d l))]
    exact ih (fun a ha => h a (List.mem_cons_of_mem d ha))

theorem uniqueKeep_append_of_subset (l1 l2 : List Int) (h : ∀ a ∈ l2, a ∈ l1) :
    uniqueKeep (l1 ++ l2) = uniqueKeep l1 := by
  unfold uniqueKeep
  rw [List.foldl_append]
  exact uniqueKeep_foldl_absorb l2 _
    (fun a ha => (mem_uniqueKeep l1 a).mpr (h a ha))

/-! ### Helper lemmas lifting the voting to rows of the price table -/

theorem filter_comm_rows (l : List PriceRow) (p q : PriceRow → Bool) :
    (l.filter p).filter q = (l.filter q).filter p := by
  rw [List.filter_filter, List.filter_filter]
  exact List.filter_congr (fun a _ => Bool.and_comm (q a) (p a))

theorem rowsForDate_filter (rows : List PriceRow) (p : PriceRow → Bool) (d : Int) :
    rowsForDate (rows.filter p) d = (rowsForDate rows d).filter p := by
  unfold rowsForDate
  exact filter_comm_rows rows p (fun r => decide (r.date = d))

theorem fieldObs_filter_vendor (dayRows : List PriceRow) (excl : List Int) (i : Nat) :
    fieldObs (dayRows.filter (fun r => !decide (r.vendor ∈ excl))) i
      = (fieldObs dayRows i).filter (fun o => !decide (o.1 ∈ excl)) := by
  unfold fieldObs
  rw [List.filter_map]
  rfl

theorem consensusForDate_congr (excl : List Int) (weights : List (Int × ℚ))
    (rows1 rows2 : List PriceRow) (nfields : Nat) (d : Int)
    (h : rows1.filter (fun r => !decide (r.vendor ∈ excl))
        = rows2.filter (fun r => !decide (r.vendor ∈ excl))) :
    consensusForDate excl weights rows1 nfields d
      = consensusForDate excl weights rows2 nfields d := by
  unfold consensusForDate
  apply List.map_congr_left
  intro i _
  apply fieldConsensus_filter_excl
  rw [← fieldObs_filter_vendor, ← fieldObs_filter_vendor,
    ← rowsForDate_filter, ← rowsForDate_filter, h]

theorem consensusRows_dates (excl : List Int) (weights : List (Int × ℚ))
    (rows : List PriceRow) (nfields : Nat) (period : Option Int) (now vid : Int) :
    (consensusRows excl weights rows nfields period now vid).map (fun r => r.date)
      = windowDates period now (uniqueDates rows) := by
  unfold consensusRows
  rw [List.map_map]
  exact List.map_id _

theorem consensusRows_vendor (excl : List Int) (weights : List (Int × ℚ))
    (rows : List PriceRow) (nfields : Nat) (period : Option Int) (now vid : Int)
    (r : PriceRow) (hr : r ∈ consensusRows excl weights rows nfields period now vid) :
    r.vendor = vid := by
  unfold consensusRows at hr
  obtain ⟨d, _, rfl⟩ := List.mem_map.mp hr
  rfl

/-! ### Helper lemmas about the delete/insert retry loop -/

theorem writeLoop_attempts_le (outcomes : Nat → Bool)
    (delStorage newRows storage : List PriceRow) (k fuel : Nat) :
    (writeLoop outcomes delStorage newRows storage k fuel).2.1 ≤ k + fuel := by
  induction fuel generalizing k with
  | zero => simp [writeLoop]
  | succ n ih =>
    rw [writeLoop]
    by_cases ho : outcomes k = true
    · rw [if_pos ho]
      show k + 1 ≤ k + (n + 1)
      omega
    · rw [if_neg ho]
      have := ih (k + 1)
      omega

theorem writeLoop_inserted_iff (outcomes : Nat → Bool)
    (delStorage newRows storage : List PriceRow) (k fuel : Nat) :
    (writeLoop outcomes delStorage newRows storage k fuel).2.2 = true ↔
      ∃ i, i < fuel ∧ outcomes (k + i) = true := by
  induction fuel generalizing k with
  | zero => simp [writeLoop]
  | succ n ih =>
    rw [writeLoop]
    by_cases ho : outcomes k = true
    · rw [if_pos ho]
      exact ⟨fun _ => ⟨0, Nat.succ_pos n, by simpa using ho⟩, fun _ => rfl⟩
    · rw [if_neg ho]
      rw [ih (k + 1)]
      constructor
      · rintro ⟨i, hi, hoi⟩
        exact ⟨i + 1, by omega, by rw [show k + (i + 1) = k + 1 + i by omega]; exact hoi⟩
      · rintro ⟨i, hi, hoi⟩
        match i with
        | 0 => exact absurd (by simpa using hoi) ho
        | i + 1 =>
          exact ⟨i, by omega, by rw [show k + 1 + i = k + (i + 1) by omega]; exact hoi⟩

theorem writeLoop_not_inserted (outcomes : Nat → Bool)
    (delStorage newRows storage : List PriceRow) (k fuel : Nat)
    (h : (writeLoop outcomes delStorage newRows storage k fuel).2.2 = false) :
    (writeLoop outcomes delStorage newRows storage k fuel).1 = storage := by
  induction fuel generalizing k with
  | zero => simp [writeLoop]
  | succ n ih =>
    rw [writeLoop] at h ⊢
    by_cases ho : outcomes k = true
    · rw [if_pos ho] at h
      simp at h
    · rw [if_neg ho] at h ⊢
      exact ih (k + 1) h

theorem writeLoop_inserted_result (outcomes : Nat → Bool)
    (delStorage newRows storage : List PriceRow) (k fuel : Nat)
    (h : (writeLoop outcomes delStorage newRows storage k fuel).2.2 = true) :
    (writeLoop outcomes delStorage newRows storage k fuel).1 = delStorage ++ newRows := by
  induction fuel generalizing k with
  | zero => simp [writeLoop] at h
  | succ n ih =>
    rw [writeLoop] at h ⊢
    by_cases ho : outcomes k = true
    · rw [if_pos ho]
    · rw [if_neg ho] at h ⊢
      exact ih (k + 1) h

theorem tallyInsert_mem_key (t : List (ℚ × ℚ)) (v w : ℚ) (q : ℚ × ℚ)
    (hq : q ∈ tallyInsert t v w) : q.1 = v ∨ q.1 ∈ t.map Prod.fst := by
  unfold tallyInsert at hq
  by_cases hv : v ∈ t.map Prod.fst
  · rw [if_pos hv] at hq
    obtain ⟨p, hp, rfl⟩ := List.mem_map.mp hq
    by_cases hpv : p.1 = v
    · simp [hpv]
    · simp only [hpv, if_false]
      exact Or.inr (List.mem_map_of_mem Prod.fst hp)
  · rw [if_neg hv] at hq
    rcases List.mem_append.mp hq with h | h
    · exact Or.inr (List.mem_map_of_mem Prod.fst h)
    · simp only [List.mem_singleton] at h
      exact Or.inl (by rw [h])

theorem tallyField_keys_sentinel (excl : List Int) (weights : List (Int × ℚ))
    (obs : List (Int × Option ℚ))
    (h : ∀ o ∈ obs, o.1 ∈ excl ∨ o.2 = none ∨ lookupWeight weights o.1 = none ∨
      o.2 = some (-1)) :
    ∀ p ∈ tallyField excl weights obs, p.1 = -1 := by
  unfold tallyField
  have main : ∀ (l : List (Int × Option ℚ)) (t : List (ℚ × ℚ)),
      (∀ o ∈ l, o.1 ∈ excl ∨ o.2 = none ∨ lookupWeight weights o.1 = none ∨
        o.2 = some (-1)) →
      (∀ p ∈ t, p.1 = -1) →
      ∀ p ∈ l.foldl (voteStep excl weights) t, p.1 = -1 := by
    intro l
    induction l with
    | nil => intro t _ ht; simpa using ht
    | cons o l ih =>
      intro t hl ht
      simp only [List.foldl_cons]
      refine ih _ (fun o' ho' => hl o' (List.mem_cons_of_mem o ho')) ?_
      rcases hl o (List.mem_cons_self o l) with h1 | h1 | h1 | h1
      · rw [voteStep_skip excl weights t o (Or.inl h1)]; exact ht
      · rw [voteStep_skip excl weights t o (Or.inr (Or.inl h1))]; exact ht
      · rw [voteStep_skip excl weights t o (Or.inr (Or.inr h1))]; exact ht
      · unfold voteStep
        by_cases he : o.1 ∈ excl
        · simp only [he, if_true]; exact ht
        · simp only [he, if_false, h1]
          match hw : lookupWeight weights o.1 with
          | none => exact ht
          | some w =>
            intro p hp
            rcases tallyInsert_mem_key t (-1) w p hp with h2 | h2
            · exact h2
            · obtain ⟨q, hq, hq1⟩ := List.mem_map.mp h2
              exact hq1 ▸ ht q hq
  exact main obs [] h (by simp)

/-! ### The claims -/

/-- C1: for every date and price field, the consensus engine tallies
accumulated weight by distinct reported value (each bucket of the tally
holds the total weight of all vendors that reported that exact value, not
a per-vendor weight) and selects a tallied value whose bucket weight is
maximal; concretely, with weights {1 ↦ 3, 2 ↦ 2, 3 ↦ 4} and values
{1 ↦ 10.0, 2 ↦ 10.0, 3 ↦ 11.0} the consensus value is 10.0, because the
accumulated weight 3 + 2 = 5 on value 10.0 exceeds the weight 4 on 11.0. -/
theorem consensus_tallies_by_value_and_picks_max :
    (∀ (excl : List Int) (weights : List (Int × ℚ)) (obs : List (Int × Option ℚ)),
      ∀ p ∈ tallyField excl weights obs, p.2 = accumWeight excl weights obs p.1) ∧
    (∀ (excl : List Int) (weights : List (Int × ℚ)) (obs : List (Int × Option ℚ)),
      tallyField excl weights obs ≠ [] →
      fieldConsensus excl weights obs ∈ (tallyField excl weights obs).map Prod.fst ∧
      ∀ p ∈ tallyField excl weights obs,
        p.2 ≤ accumWeight excl weights obs (fieldConsensus excl weights obs)) ∧
    fieldConsensus [] [(1, 3), (2, 2), (3, 4)]
      [(1, some 10), (2, some 10), (3, some 11)] = 10 := by
  refine ⟨?_, ?_, ?_⟩
  · intro excl weights obs p hp
    rw [← tallyLookup_of_mem _ p (tallyField_keys_nodup excl weights obs) hp,
      tallyLookup_tallyField]
  · intro excl weights obs hne
    match ht : tallyField excl weights obs with
    | [] => exact absurd ht hne
    | x :: xs =>
      set m := xs.foldl (fun best p => if best.2 < p.2 then p else best) x with hm
      have hsome : pyMax (x :: xs) = some m := rfl
      obtain ⟨hmem, hmax⟩ := pyMax_mem_and_max _ m hsome
      have hmem' : m ∈ tallyField excl weights obs := ht ▸ hmem
      have hfc : fieldConsensus excl weights obs = m.1 := by
        unfold fieldConsensus
        rw [ht, hsome]
      have hacc : m.2 = accumWeight excl weights obs m.1 := by
        rw [← tallyLookup_of_mem _ m (tallyField_keys_nodup excl weights obs) hmem',
          tallyLookup_tallyField]
      constructor
      · rw [hfc]
        exact List.mem_map_of_mem Prod.fst hmem
      · intro p hp
        rw [hfc, ← hacc]
        exact hmax p hp
  · norm_num [fieldConsensus, tallyField, voteStep, lookupWeight, tallyInsert, pyMax]

/-- Witness for C1 at a concrete input: a one-vendor tally is nonempty and
the winning value is one of its bucket keys. -/
theorem consensus_tallies_by_value_and_picks_max_witness :
    tallyField [] [(1, 3)] [(1, some 10)] ≠ [] ∧
    fieldConsensus [] [(1, 3)] [(1, some 10)]
      ∈ (tallyField [] [(1, 3)] [(1, some 10)]).map Prod.fst := by
  have hne : tallyField [] [(1, 3)] [(1, some 10)] ≠ [] := by
    norm_num [tallyField, voteStep, lookupWeight, tallyInsert]
  exact ⟨hne, (consensus_tallies_by_value_and_picks_max.2.1 [] [(1, 3)] [(1, some 10)] hne).1⟩

/-- C2 counterexample: the voting loop only skips `None` values, not the
`-1` sentinel. A reported value of `-1` is tallied like any other value:
with weights {1 ↦ 5, 2 ↦ 1} and observations {1 ↦ -1, 2 ↦ 10}, the `-1`
observation accumulates weight 5 and wins, whereas without it the
consensus would be 10. -/
theorem sentinel_value_still_tallied :
    fieldConsensus [] [(1, 5), (2, 1)] [(1, some (-1)), (2, some 10)] = -1 ∧
    accumWeight [] [(1, 5), (2, 1)] [(1, some (-1)), (2, some 10)] (-1) = 5 ∧
    fieldConsensus [] [(1, 5), (2, 1)] [(2, some 10)] = 10 := by
  norm_num [fieldConsensus, tallyField, voteStep, lookupWeight, tallyInsert, pyMax,
    accumWeight, obsWeight]

/-- C2 as amended: in the per-date, per-field vote, only observations whose
vendor id is not in the exclusion set and whose value is present (not the
missing-data marker `None`) are collected into the tally; an excluded or
value-less observation contributes no weight to any bucket and cannot
change the winning value. (A present value of `-1` is tallied like any
other value; the `-1` sentinel only arises on output, for an empty tally.) -/
theorem none_and_excluded_not_tallied (excl : List Int) (weights : List (Int × ℚ))
    (pre post : List (Int × Option ℚ)) (o : Int × Option ℚ)
    (h : o.1 ∈ excl ∨ o.2 = none) :
    tallyField excl weights (pre ++ o :: post) = tallyField excl weights (pre ++ post) ∧
    fieldConsensus excl weights (pre ++ o :: post)
      = fieldConsensus excl weights (pre ++ post) := by
  have h' : o.1 ∈ excl ∨ o.2 = none ∨ lookupWeight weights o.1 = none := by
    rcases h with h | h
    · exact Or.inl h
    · exact Or.inr (Or.inl h)
  exact ⟨tallyField_skip_middle excl weights pre post o h',
    fieldConsensus_skip_middle excl weights pre post o h'⟩

/-- Witness for the amended C2: dropping an excluded vendor's observation
leaves the consensus unchanged at a concrete input. -/
theorem none_and_excluded_not_tallied_witness :
    ((5 : Int) ∈ ([5] : List Int) ∨ (some 1 : Option ℚ) = none) ∧
    fieldConsensus [5] [(1, 2)] [(1, some 3), (5, some 1)]
      = fieldConsensus [5] [(1, 2)] [(1, some 3)] := by
  have h : ((5 : Int), (some 1 : Option ℚ)).1 ∈ ([5] : List Int) ∨
      ((5 : Int), (some 1 : Option ℚ)).2 = none := Or.inl (by simp)
  exact ⟨Or.inl (by simp),
    (none_and_excluded_not_tallied [5] [(1, 2)] [(1, some 3)] [] (5, some 1) h).2⟩

/-- C3: for every date and field whose observations are all disqualified
(vendor excluded, value missing, vendor without a weight row, or value
equal to the sentinel `-1`), the recorded consensus value is the sentinel
`-1`; moreover the consensus record always carries exactly one value per
field column — no field is ever omitted. -/
theorem no_qualifying_values_gives_sentinel :
    (∀ (excl : List Int) (weights : List (Int × ℚ)) (obs : List (Int × Option ℚ)),
      (∀ o ∈ obs, o.1 ∈ excl ∨ o.2 = none ∨ lookupWeight weights o.1 = none ∨
        o.2 = some (-1)) →
      fieldConsensus excl weights obs = -1) ∧
    (∀ (excl : List Int) (weights : List (Int × ℚ)) (rows : List PriceRow)
      (nfields : Nat) (d : Int),
      (consensusForDate excl weights rows nfields d).length = nfields) := by
  constructor
  · intro excl weights obs h
    have hkeys := tallyField_keys_sentinel excl weights obs h
    unfold fieldConsensus
    match ht : tallyField excl weights obs with
    | [] => rfl
    | x :: xs =>
      have hsome : pyMax (x :: xs)
          = some (xs.foldl (fun best p => if best.2 < p.2 then p else best) x) := rfl
      rw [hsome]
      obtain ⟨hmem, _⟩ := pyMax_mem_and_max (x :: xs) _ hsome
      rw [ht] at hkeys
      exact hkeys _ hmem
  · intro excl weights rows nfields d
    unfold consensusForDate
    rw [List.length_map, List.length_range]

/-- Witness for C3: a date/field whose observations are one excluded
vendor, one missing value, one weightless vendor and one sentinel value
yields the sentinel. -/
theorem no_qualifying_values_gives_sentinel_witness :
    (∀ o ∈ ([(1, some 2), (2, none), (9, some 7), (3, some (-1))] :
        List (Int × Option ℚ)),
      o.1 ∈ ([1] : List Int) ∨ o.2 = none ∨ lookupWeight [(3, 2)] o.1 = none ∨
        o.2 = some (-1)) ∧
    fieldConsensus [1] [(3, 2)] [(1, some 2), (2, none), (9, some 7), (3, some (-1))]
      = -1 := by
  have h : ∀ o ∈ ([(1, some 2), (2, none), (9, some 7), (3, some (-1))] :
      List (Int × Option ℚ)),
      o.1 ∈ ([1] : List Int) ∨ o.2 = none ∨ lookupWeight [(3, 2)] o.1 = none ∨
        o.2 = some (-1) := by
    norm_num [lookupWeight]
  exact ⟨h, no_qualifying_values_gives_sentinel.1 [1] [(3, 2)] _ h⟩

/-- C8: on an exact tie of accumulated weights, the winning consensus value
is the bucket created first during tally construction: the tally list keeps
buckets in creation order, and the winner is preceded only by buckets of
strictly smaller weight (so any other bucket of equal, maximal weight sits
after it). Concretely, with equal weights on values 9 and 7 reported in
that order, the winner is 9 — encounter order, not value order. -/
theorem tie_break_first_bucket :
    (∀ (excl : List Int) (weights : List (Int × ℚ)) (obs : List (Int × Option ℚ)),
      tallyField excl weights obs ≠ [] →
      ∃ m l1 l2, tallyField excl weights obs = l1 ++ m :: l2 ∧
        fieldConsensus excl weights obs = m.1 ∧
        (∀ p ∈ l1, p.2 < m.2) ∧
        (∀ p ∈ tallyField excl weights obs, p.2 ≤ m.2)) ∧
    fieldConsensus [] [(1, 2), (2, 2)] [(1, some 9), (2, some 7)] = 9 := by
  constructor
  · intro excl weights obs hne
    match ht : tallyField excl weights obs with
    | [] => exact absurd ht hne
    | x :: xs =>
      set m := xs.foldl (fun best p => if best.2 < p.2 then p else best) x with hm
      have hsome : pyMax (x :: xs) = some m := rfl
      obtain ⟨l1, l2, hsplit, hlt⟩ := pyMax_first _ m hsome
      obtain ⟨_, hmax⟩ := pyMax_mem_and_max _ m hsome
      refine ⟨m, l1, l2, hsplit, ?_, hlt, hmax⟩
      unfold fieldConsensus
      rw [ht, hsome]
  · norm_num [fieldConsensus, tallyField, voteStep, lookupWeight, tallyInsert, pyMax]

/-- Witness for C8 at a concrete two-bucket tie: the decomposition exists
and names the first bucket as winner. -/
theorem tie_break_first_bucket_witness :
    tallyField [] [(1, 2), (2, 2)] [(1, some 9), (2, some 7)] ≠ [] ∧
    ∃ m l1 l2,
      tallyField [] [(1, 2), (2, 2)] [(1, some 9), (2, some 7)] = l1 ++ m :: l2 ∧
      fieldConsensus [] [(1, 2), (2, 2)] [(1, some 9), (2, some 7)] = m.1 ∧
      (∀ p ∈ l1, p.2 < m.2) ∧
      (∀ p ∈ tallyField [] [(1, 2), (2, 2)] [(1, some 9), (2, some 7)], p.2 ≤ m.2) := by
  have hval : tallyField [] [(1, 2), (2, 2)] [(1, some 9), (2, some 7)]
      = [(9, 2), (7, 2)] := by
    norm_num [tallyField, voteStep, lookupWeight, tallyInsert]
  have hne : tallyField [] [(1, 2), (2, 2)] [(1, some 9), (2, some 7)] ≠ [] := by
    rw [hval]
    exact List.cons_ne_nil _ _
  exact ⟨hne, tie_break_first_bucket.1 [] [(1, 2), (2, 2)] [(1, some 9), (2, some 7)] hne⟩

/-- C10: an observation from a vendor with no row in the source-weight
table is skipped (the `IndexError` → `pass` branch): it adds no weight to
any bucket, leaves every existing bucket unchanged, and the tally and
consensus over the remaining observations are exactly as if the
observation were absent — other vendors on the same date/field are still
tallied, and no error is raised (both functions are total). -/
theorem missing_weight_skipped (excl : List Int) (weights : List (Int × ℚ))
    (pre post : List (Int × Option ℚ)) (o : Int × Option ℚ)
    (h : lookupWeight weights o.1 = none) :
    tallyField excl weights (pre ++ o :: post) = tallyField excl weights (pre ++ post) ∧
    fieldConsensus excl weights (pre ++ o :: post)
      = fieldConsensus excl weights (pre ++ post) :=
  ⟨tallyField_skip_middle excl weights pre post o (Or.inr (Or.inr h)),
    fieldConsensus_skip_middle excl weights pre post o (Or.inr (Or.inr h))⟩

/-- Witness for C10: a weightless vendor's observation between two weighted
ones changes nothing at a concrete input. -/
theorem missing_weight_skipped_witness :
    lookupWeight [(1, 2), (2, 3)] 9 = none ∧
    fieldConsensus [] [(1, 2), (2, 3)] [(1, some 4), (9, some 8), (2, some 4)]
      = fieldConsensus [] [(1, 2), (2, 3)] [(1, some 4), (2, some 4)] := by
  have h : lookupWeight [(1, 2), (2, 3)] ((9 : Int), (some 8 : Option ℚ)).1 = none := by
    norm_num [lookupWeight]
  exact ⟨h, (missing_weight_skipped [] [(1, 2), (2, 3)] [(1, some 4)] [(2, some 4)]
    (9, some 8) h).2⟩

/-- C4 counterexample: two observation tables that differ only in a row of
an excluded vendor (here the reserved consensus vendor 7) do NOT always
yield identical consensus output: the excluded row still contributes its
date to the set of dates iterated, so one run produces an all-sentinel
consensus record for date 5 and the other produces no record at all. -/
theorem excluded_row_can_add_date :
    (([⟨5, 7, [some 1], 0⟩] : List PriceRow).filter
        (fun r => !decide (r.vendor ∈ ([7] : List Int)))
      = ([] : List PriceRow).filter (fun r => !decide (r.vendor ∈ ([7] : List Int)))) ∧
    consensusRows [7] [(7, 1)] [⟨5, 7, [some 1], 0⟩] 1 none 0 7
      ≠ consensusRows [7] [(7, 1)] [] 1 none 0 7 := by
  constructor
  · simp [List.filter]
  · have h1 : consensusRows [7] [(7, 1)] [⟨5, 7, [some 1], 0⟩] 1 none 0 7
        = [⟨5, 7, [some (-1)], 0⟩] := by
      norm_num [consensusRows, windowDates, uniqueDates, uniqueKeep, consensusForDate,
        rowsForDate, fieldObs, fieldConsensus, tallyField, voteStep, lookupWeight,
        tallyInsert, pyMax, List.range_succ]
    have h2 : consensusRows [7] [(7, 1)] [] 1 none 0 7 = [] := by
      norm_num [consensusRows, windowDates, uniqueDates, uniqueKeep]
    rw [h1, h2]
    exact List.cons_ne_nil _ _

/-- C4 as amended: an observation from an excluded vendor (at minimum the
reserved consensus vendor) never influences voting: for any two observation
tables whose non-excluded rows are identical, the per-date, per-field
consensus values agree on every date, and whenever the excluded rows
introduce no new dates (the unique-date lists agree) the full consensus
record sets are identical — the only possible difference is an extra
all-sentinel record for a date covered solely by excluded rows. -/
theorem excluded_rows_never_influence_voting (excl : List Int)
    (weights : List (Int × ℚ)) (rows1 rows2 : List PriceRow) (nfields : Nat)
    (h : rows1.filter (fun r => !decide (r.vendor ∈ excl))
        = rows2.filter (fun r => !decide (r.vendor ∈ excl))) :
    (∀ d : Int, consensusForDate excl weights rows1 nfields d
      = consensusForDate excl weights rows2 nfields d) ∧
    (uniqueDates rows1 = uniqueDates rows2 →
      ∀ (period : Option Int) (now vid : Int),
        consensusRows excl weights rows1 nfields period now vid
          = consensusRows excl weights rows2 nfields period now vid) := by
  constructor
  · intro d
    exact consensusForDate_congr excl weights rows1 rows2 nfields d h
  · intro hdates period now vid
    unfold consensusRows
    rw [hdates]
    apply List.map_congr_left
    intro d _
    rw [consensusForDate_congr excl weights rows1 rows2 nfields d h]

/-- Witness for the amended C4: adding an excluded vendor's row on an
existing date leaves the consensus of that date unchanged. -/
theorem excluded_rows_never_influence_voting_witness :
    (([⟨1, 2, [some 3], 0⟩, ⟨1, 7, [some 4], 0⟩] : List PriceRow).filter
        (fun r => !decide (r.vendor ∈ ([7] : List Int)))
      = ([⟨1, 2, [some 3], 0⟩] : List PriceRow).filter
        (fun r => !decide (r.vendor ∈ ([7] : List Int)))) ∧
    consensusForDate [7] [(2, 1), (7, 9)]
        [⟨1, 2, [some 3], 0⟩, ⟨1, 7, [some 4], 0⟩] 1 1
      = consensusForDate [7] [(2, 1), (7, 9)] [⟨1, 2, [some 3], 0⟩] 1 1 := by
  have h : ([⟨1, 2, [some 3], 0⟩, ⟨1, 7, [some 4], 0⟩] : List PriceRow).filter
        (fun r => !decide (r.vendor ∈ ([7] : List Int)))
      = ([⟨1, 2, [some 3], 0⟩] : List PriceRow).filter
        (fun r => !decide (r.vendor ∈ ([7] : List Int))) := by
    simp [List.filter]
  exact ⟨h, (excluded_rows_never_influence_voting [7] [(2, 1), (7, 9)]
    [⟨1, 2, [some 3], 0⟩, ⟨1, 7, [some 4], 0⟩] [⟨1, 2, [some 3], 0⟩] 1 h).1 1⟩

/-- C5: when prior consensus rows exist for the instrument (the reserved
consensus vendor id appears among its stored sources), the writer attempts
the delete at most 5 times; the append runs exactly when some of the first
5 delete attempts reports success, in which case the final storage is the
deleted storage plus the new rows; and if every one of the 5 attempts
fails, the storage is unchanged — no new consensus rows are ever inserted
without a confirmed delete. -/
theorem delete_retry_fail_closed (excl : List Int) (weights : List (Int × ℚ))
    (nfields : Nat) (period : Option Int) (vid now : Int) (outcomes : Nat → Bool)
    (storage : List PriceRow) (hprior : vid ∈ uniqueSources storage) :
    (runValidator excl weights nfields period vid now outcomes storage).2.1 ≤ 5 ∧
    ((runValidator excl weights nfields period vid now outcomes storage).2.2 = true ↔
      ∃ i, i < 5 ∧ outcomes i = true) ∧
    ((∀ i, i < 5 → outcomes i = false) →
      (runValidator excl weights nfields period vid now outcomes storage).1 = storage) ∧
    ((runValidator excl weights nfields period vid now outcomes storage).2.2 = true →
      (runValidator excl weights nfields period vid now outcomes storage).1
        = deleteRows period now vid storage
          ++ consensusRows excl weights storage nfields period now vid) := by
  unfold runValidator
  rw [if_pos hprior]
  refine ⟨?_, ?_, ?_, ?_⟩
  · simpa using writeLoop_attempts_le outcomes _ _ storage 0 5
  · simpa using writeLoop_inserted_iff outcomes _ _ storage 0 5
  · intro hfail
    apply writeLoop_not_inserted
    rw [Bool.eq_false_iff]
    intro hins
    obtain ⟨i, hi, hoi⟩ := (writeLoop_inserted_iff outcomes _ _ storage 0 5).mp hins
    rw [Nat.zero_add] at hoi
    exact Bool.false_ne_true ((hfail i hi) ▸ hoi)
  · intro hins
    exact writeLoop_inserted_result outcomes _ _ storage 0 5 hins

/-- Witness for C5: with one prior consensus row and an always-failing
delete oracle the storage is left unchanged. -/
theorem delete_retry_fail_closed_witness :
    (7 : Int) ∈ uniqueSources [⟨1, 7, [some 2], 0⟩] ∧
    (runValidator [7] [(2, 1)] 1 none 7 0 (fun _ => false)
      [⟨1, 7, [some 2], 0⟩]).1 = [⟨1, 7, [some 2], 0⟩] := by
  have hprior : (7 : Int) ∈ uniqueSources [⟨1, 7, [some 2], 0⟩] := by
    unfold uniqueSources
    rw [mem_uniqueKeep]
    simp
  exact ⟨hprior, (delete_retry_fail_closed [7] [(2, 1)] 1 none 7 0 (fun _ => false)
    [⟨1, 7, [some 2], 0⟩] hprior).2.2.1 (fun _ _ => rfl)⟩

/-- C9: if the reserved consensus vendor id appears nowhere in the vendor
column of the instrument's stored rows, the writer performs no delete at
all (zero delete attempts) and directly appends the computed consensus
rows — a pure insert, for any delete oracle. -/
theorem no_prior_consensus_pure_insert (excl : List Int) (weights : List (Int × ℚ))
    (nfields : Nat) (period : Option Int) (vid now : Int) (outcomes : Nat → Bool)
    (storage : List PriceRow)
    (hno : vid ∉ storage.map (fun r => r.vendor)) :
    runValidator excl weights nfields period vid now outcomes storage
      = (storage ++ consensusRows excl weights storage nfields period now vid,
          0, true) := by
  unfold runValidator
  rw [if_neg]
  intro hmem
  exact hno ((mem_uniqueKeep _ _).mp hmem)

/-- Witness for C9: a table whose only vendor is 2 is purely appended to
when the consensus vendor is 7, whatever the delete oracle does. -/
theorem no_prior_consensus_pure_insert_witness :
    (7 : Int) ∉ ([⟨1, 2, [some 3], 0⟩] : List PriceRow).map (fun r => r.vendor) ∧
    runValidator [7] [(2, 1)] 1 none 7 0 (fun _ => false) [⟨1, 2, [some 3], 0⟩]
      = ([⟨1, 2, [some 3], 0⟩]
          ++ consensusRows [7] [(2, 1)] [⟨1, 2, [some 3], 0⟩] 1 none 0 7, 0, true) := by
  have hno : (7 : Int) ∉ ([⟨1, 2, [some 3], 0⟩] : List PriceRow).map
      (fun r => r.vendor) := by
    norm_num
  exact ⟨hno, no_prior_consensus_pure_insert [7] [(2, 1)] 1 none 7 0 (fun _ => false)
    [⟨1, 2, [some 3], 0⟩] hno⟩

theorem consensusRows_period_dates_after (excl : List Int) (weights : List (Int × ℚ))
    (rows : List PriceRow) (nfields : Nat) (n now vid : Int) (r : PriceRow)
    (hr : r ∈ consensusRows excl weights rows nfields (some n) now vid) :
    now - n < r.date := by
  unfold consensusRows at hr
  obtain ⟨d, hd, rfl⟩ := List.mem_map.mp hr
  unfold windowDates at hd
  have := List.of_mem_filter hd
  simpa using this

theorem consensusRows_period_filter_old (excl : List Int) (weights : List (Int × ℚ))
    (rows : List PriceRow) (nfields : Nat) (n now vid : Int) :
    (consensusRows excl weights rows nfields (some n) now vid).filter
      (fun r => decide (r.date ≤ now - n)) = [] := by
  rw [List.filter_eq_nil_iff]
  intro r hr
  have := consensusRows_period_dates_after excl weights rows nfields n now vid r hr
  simpa using (by omega : ¬r.date ≤ now - n)

theorem deleteRows_period_keeps_old (storage : List PriceRow) (n now vid : Int) :
    (deleteRows (some n) now vid storage).filter (fun r => decide (r.date ≤ now - n))
      = storage.filter (fun r => decide (r.date ≤ now - n)) := by
  unfold deleteRows
  rw [List.filter_filter]
  apply List.filter_congr
  intro r _
  by_cases hd : r.date ≤ now - n
  · have hlt : ¬(now - n < r.date) := by omega
    simp [hd, hlt]
  · simp [hd]

/-- C6: when a trailing period of `n` days is specified, exactly the
unique dates strictly after `now - n` produce consensus records, and the
stored rows dated at most `now - n` — in particular all earlier consensus
rows — survive the whole run unchanged, whichever branch the writer takes
and whatever the delete oracle answers: earlier dates are neither
recomputed nor deleted. -/
theorem trailing_period_windowing (excl : List Int) (weights : List (Int × ℚ))
    (nfields : Nat) (n vid now : Int) (outcomes : Nat → Bool)
    (storage : List PriceRow) :
    ((consensusRows excl weights storage nfields (some n) now vid).map (fun r => r.date)
      = (uniqueDates storage).filter (fun d => decide (now - n < d))) ∧
    ((runValidator excl weights nfields (some n) vid now outcomes storage).1.filter
        (fun r => decide (r.date ≤ now - n))
      = storage.filter (fun r => decide (r.date ≤ now - n))) := by
  constructor
  · rw [consensusRows_dates]
    rfl
  · unfold runValidator
    by_cases hprior : vid ∈ uniqueSources storage
    · rw [if_pos hprior]
      cases hins : (writeLoop outcomes (deleteRows (some n) now vid storage)
          (consensusRows excl weights storage nfields (some n) now vid)
          storage 0 5).2.2 with
      | false =>
        rw [writeLoop_not_inserted _ _ _ _ _ _ hins]
      | true =>
        rw [writeLoop_inserted_result _ _ _ _ _ _ hins, List.filter_append,
          consensusRows_period_filter_old, List.append_nil,
          deleteRows_period_keeps_old]
    · rw [if_neg hprior]
      show (storage ++ consensusRows excl weights storage nfields (some n) now vid).filter
          (fun r => decide (r.date ≤ now - n))
        = storage.filter (fun r => decide (r.date ≤ now - n))
      rw [List.filter_append, consensusRows_period_filter_old, List.append_nil]

/-! ### Helper lemmas for idempotence -/

theorem windowDates_none (now : Int) (dates : List Int) :
    windowDates none now dates = dates := rfl

theorem not_mem_uniqueSources (storage : List PriceRow) (vid : Int)
    (h : ∀ r ∈ storage, r.vendor ≠ vid) : vid ∉ uniqueSources storage := by
  unfold uniqueSources
  rw [mem_uniqueKeep]
  intro hmem
  obtain ⟨r, hr, hrv⟩ := List.mem_map.mp hmem
  exact h r hr hrv

theorem runValidator_no_prior (excl : List Int) (weights : List (Int × ℚ))
    (nfields : Nat) (period : Option Int) (vid now : Int) (outcomes : Nat → Bool)
    (storage : List PriceRow) (hno : vid ∉ uniqueSources storage) :
    runValidator excl weights nfields period vid now outcomes storage
      = (storage ++ consensusRows excl weights storage nfields period now vid,
          0, true) := by
  unfold runValidator
  rw [if_neg hno]

theorem filter_vendor_eq_nil (storage : List PriceRow) (vid : Int)
    (h : ∀ r ∈ storage, r.vendor ≠ vid) :
    storage.filter (fun r => decide (r.vendor = vid)) = [] := by
  rw [List.filter_eq_nil_iff]
  intro r hr
  simpa using h r hr

theorem consensusRows_filter_vendor_self (excl : List Int) (weights : List (Int × ℚ))
    (rows : List PriceRow) (nfields : Nat) (period : Option Int) (now vid : Int) :
    (consensusRows excl weights rows nfields period now vid).filter
      (fun r => decide (r.vendor = vid))
      = consensusRows excl weights rows nfields period now vid := by
  rw [List.filter_eq_self]
  intro r hr
  simpa using consensusRows_vendor excl weights rows nfields period now vid r hr

theorem deleteRows_none_append_consensus (storage new : List PriceRow)
    (now vid : Int) (hs : ∀ r ∈ storage, r.vendor ≠ vid)
    (hn : ∀ r ∈ new, r.vendor = vid) :
    deleteRows none now vid (storage ++ new) = storage := by
  unfold deleteRows
  rw [List.filter_append]
  have h1 : storage.filter (fun r => !decide (r.vendor = vid)) = storage := by
    rw [List.filter_eq_self]
    intro r hr
    simpa using hs r hr
  have h2 : new.filter (fun r => !decide (r.vendor = vid)) = [] := by
    rw [List.filter_eq_nil_iff]
    intro r hr
    simpa using hn r hr
  rw [h1, h2, List.append_nil]

theorem uniqueDates_append_consensus (excl : List Int) (weights : List (Int × ℚ))
    (storage : List PriceRow) (nfields : Nat) (now vid : Int) :
    uniqueDates (storage ++ consensusRows excl weights storage nfields none now vid)
      = uniqueDates storage := by
  have hsub : ∀ a ∈ (consensusRows excl weights storage nfields none now vid).map
      (fun r => r.date), a ∈ storage.map (fun r => r.date) := by
    intro a ha
    rw [consensusRows_dates, windowDates_none] at ha
    have ha' : a ∈ uniqueKeep (storage.map (fun r => r.date)) := ha
    exact (mem_uniqueKeep _ _).mp ha'
  unfold uniqueDates
  rw [List.map_append]
  exact uniqueKeep_append_of_subset _ _ hsub

theorem consensusForDate_append_excl (excl : List Int) (weights : List (Int × ℚ))
    (storage new : List PriceRow) (nfields : Nat) (d : Int)
    (hn : ∀ r ∈ new, r.vendor ∈ excl) :
    consensusForDate excl weights (storage ++ new) nfields d
      = consensusForDate excl weights storage nfields d := by
  apply consensusForDate_congr
  rw [List.filter_append]
  have h2 : new.filter (fun r => !decide (r.vendor ∈ excl)) = [] := by
    rw [List.filter_eq_nil_iff]
    intro r hr
    simpa using hn r hr
  rw [h2, List.append_nil]

theorem consensusRows_proj (excl : List Int) (weights : List (Int × ℚ))
    (rows : List PriceRow) (nfields : Nat) (now vid : Int) :
    (consensusRows excl weights rows nfields none now vid).map
      (fun r => (r.date, r.fields))
      = (uniqueDates rows).map
        (fun d => (d, (consensusForDate excl weights rows nfields d).map some)) := by
  unfold consensusRows
  rw [windowDates_none, List.map_map]
  rfl

theorem consensusRows_append_consensus (excl : List Int) (weights : List (Int × ℚ))
    (storage : List PriceRow) (nfields : Nat) (now1 now2 vid : Int)
    (hexcl : vid ∈ excl) :
    (consensusRows excl weights
        (storage ++ consensusRows excl weights storage nfields none now1 vid)
        nfields none now2 vid).map (fun r => (r.date, r.fields))
      = (consensusRows excl weights storage nfields none now1 vid).map
        (fun r => (r.date, r.fields)) := by
  have hdates := uniqueDates_append_consensus excl weights storage nfields now1 vid
  have hvend : ∀ r ∈ consensusRows excl weights storage nfields none now1 vid,
      r.vendor ∈ excl := by
    intro r hr
    rw [consensusRows_vendor excl weights storage nfields none now1 vid r hr]
    exact hexcl
  rw [consensusRows_proj, consensusRows_proj, hdates]
  apply List.map_congr_left
  intro d _
  rw [consensusForDate_append_excl excl weights storage _ nfields d hvend]

/-- C7: running the validator twice in succession on the same observation
inputs (a store whose rows carry no consensus-vendor id yet), with no
trailing-period restriction and a second-run delete that succeeds within
its 5 attempts, leaves the stored consensus record set for the instrument
identical in every price field (and date) to the first run's output: the
delete-then-reinsert converges. (The wall-clock stamps `now1`, `now2` of
the two runs are arbitrary; record identity is compared on date and field
values, the content of a consensus record.) -/
theorem validator_idempotent (excl : List Int) (weights : List (Int × ℚ))
    (nfields : Nat) (vid now1 now2 : Int) (o1 o2 : Nat → Bool)
    (storage : List PriceRow)
    (hexcl : vid ∈ excl)
    (hfresh : ∀ r ∈ storage, r.vendor ≠ vid)
    (hdel : ∃ i, i < 5 ∧ o2 i = true) :
    (((runValidator excl weights nfields none vid now2 o2
          (runValidator excl weights nfields none vid now1 o1 storage).1).1.filter
        (fun r => decide (r.vendor = vid))).map (fun r => (r.date, r.fields)))
      = ((((runValidator excl weights nfields none vid now1 o1 storage).1).filter
          (fun r => decide (r.vendor = vid))).map (fun r => (r.date, r.fields))) := by
  have hno1 : vid ∉ uniqueSources storage := not_mem_uniqueSources storage vid hfresh
  have hS1 : (runValidator excl weights nfields none vid now1 o1 storage).1
      = storage ++ consensusRows excl weights storage nfields none now1 vid := by
    rw [runValidator_no_prior excl weights nfields none vid now1 o1 storage hno1]
  rw [hS1]
  have hvend1 : ∀ r ∈ consensusRows excl weights storage nfields none now1 vid,
      r.vendor = vid :=
    consensusRows_vendor excl weights storage nfields none now1 vid
  by_cases hvs : vid ∈ uniqueSources
      (storage ++ consensusRows excl weights storage nfields none now1 vid)
  · have hins : (writeLoop o2
        (deleteRows none now2 vid
          (storage ++ consensusRows excl weights storage nfields none now1 vid))
        (consensusRows excl weights
          (storage ++ consensusRows excl weights storage nfields none now1 vid)
          nfields none now2 vid)
        (storage ++ consensusRows excl weights storage nfields none now1 vid)
        0 5).2.2 = true := by
      rw [writeLoop_inserted_iff]
      obtain ⟨i, hi, hoi⟩ := hdel
      exact ⟨i, hi, by simpa using hoi⟩
    have hS2 : (runValidator excl weights nfields none vid now2 o2
        (storage ++ consensusRows excl weights storage nfields none now1 vid)).1
        = deleteRows none now2 vid
            (storage ++ consensusRows excl weights storage nfields none now1 vid)
          ++ consensusRows excl weights
            (storage ++ consensusRows excl weights storage nfields none now1 vid)
            nfields none now2 vid := by
      unfold runValidator
      rw [if_pos hvs]
      exact writeLoop_inserted_result _ _ _ _ 0 5 hins
    rw [hS2, deleteRows_none_append_consensus storage _ now2 vid hfresh hvend1,
      List.filter_append, List.filter_append,
      filter_vendor_eq_nil storage vid hfresh, List.nil_append, List.nil_append,
      consensusRows_filter_vendor_self, consensusRows_filter_vendor_self]
    exact consensusRows_append_consensus excl weights storage nfields now1 now2 vid hexcl
  · have hnew1 : consensusRows excl weights storage nfields none now1 vid = [] := by
      match hn : consensusRows excl weights storage nfields none now1 vid with
      | [] => rfl
      | r :: rest =>
        exfalso
        apply hvs
        unfold uniqueSources
        rw [mem_uniqueKeep]
        refine List.mem_map.mpr ⟨r, ?_, ?_⟩
        · rw [hn]
          exact List.mem_append_right _ (List.mem_cons_self r rest)
        · exact hvend1 r (hn ▸ List.mem_cons_self r rest)
    have hud : uniqueDates storage = [] := by
      have := hnew1
      unfold consensusRows at this
      rw [windowDates_none] at this
      exact List.map_eq_nil_iff.mp this
    have hS1nil : storage ++ consensusRows excl weights storage nfields none now1 vid
        = storage := by
      rw [hnew1, List.append_nil]
    rw [hS1nil]
    have hnew2 : consensusRows excl weights storage nfields none now2 vid = [] := by
      unfold consensusRows
      rw [windowDates_none, hud]
      rfl
    rw [runValidator_no_prior excl weights nfields none vid now2 o2 storage
      (hS1nil ▸ hvs), hnew2, List.append_nil]

/-- Witness for C7: a one-row observation store run twice with an
always-succeeding delete oracle keeps the same consensus record set. -/
theorem validator_idempotent_witness :
    (7 : Int) ∈ ([7] : List Int) ∧
    (∀ r ∈ ([⟨1, 2, [some 3], 0⟩] : List PriceRow), r.vendor ≠ 7) ∧
    (∃ i, i < 5 ∧ (fun _ : Nat => true) i = true) ∧
    (((runValidator [7] [(2, 1)] 1 none 7 6 (fun _ => true)
          (runValidator [7] [(2, 1)] 1 none 7 5 (fun _ => true)
            [⟨1, 2, [some 3], 0⟩]).1).1.filter
        (fun r => decide (r.vendor = 7))).map (fun r => (r.date, r.fields)))
      = ((((runValidator [7] [(2, 1)] 1 none 7 5 (fun _ => true)
            [⟨1, 2, [some 3], 0⟩]).1).filter
          (fun r => decide (r.vendor = 7))).map (fun r => (r.date, r.fields))) := by
  have h1 : (7 : Int) ∈ ([7] : List Int) := List.mem_singleton.mpr rfl
  have h2 : ∀ r ∈ ([⟨1, 2, [some 3], 0⟩] : List PriceRow), r.vendor ≠ 7 := by
    norm_num
  have h3 : ∃ i, i < 5 ∧ (fun _ : Nat => true) i = true := ⟨0, by omega, rfl⟩
  exact ⟨h1, h2, h3,
    validator_idempotent [7] [(2, 1)] 1 7 5 6 (fun _ => true) (fun _ => true)
      [⟨1, 2, [some 3], 0⟩] h1 h2 h3⟩

end PySecMaster
